import Mathlib

/-!
Shallow embedding of the cbase package (src/common.go) of cxio/cbase.

Bytes are modelled as lists of naturals; the functions produced by the code
only emit values below 256.  The external collaborators of the package —
the single-key address hash `paddr.Hash`, the multi-signature address
derivation `paddr.MulHash`, and the ed25519 verifier `ed25519.Verify` —
are abstract function parameters of the embedded operations, so every
theorem below holds for an arbitrary choice of collaborator.

A Go `panic` is modelled by `Option`: `none` is the fault, `some` a
normal return.  Two panics are reachable in the embedded code: the
out-of-bounds index `sigs[i]` that `CheckSigs` hits when the signature
list is shorter than the public-key list, and the out-of-range re-slice
`pk[1:]` that the key-stripping loop of `MultiCheck` hits on a
zero-length public-key entry.
-/

namespace Cbase

/-- Byte sequences (Go `[]byte`), as lists of naturals. -/
abbrev Bytes := List Nat

/-- Big-endian serialisation of `x` into exactly `w` bytes, as performed by
`binary.Write(&buf, binary.BigEndian, uintN(x))`: the unsigned conversion
truncates `x` modulo `256^w` and the bytes come out most significant first. -/
def beBytes : Nat → Nat → Bytes
  | 0, _ => []
  | w + 1, x => beBytes w (x / 256) ++ [x % 256]

/-- `KeyID` from src/common.go: the 4-byte big-endian `uint32(h)`, then the
4-byte big-endian `uint32(n)`, then the 2-byte big-endian `uint16(i)`. -/
def KeyID (h n i : Nat) : Bytes :=
  beBytes 4 h ++ beBytes 4 n ++ beBytes 2 i

/-- `MulPubKeys` from src/common.go, on its well-formed domain: each entry
`pk` of the list is replaced by the re-slice `pk[1:]`, dropping the 1-byte
roster-position tag.  `List.drop 1` agrees with `pk[1:]` exactly on
non-empty entries; on a zero-length entry Go panics (slice bounds out of
range), a fault carried by `mulPubKeysLoop` below and absent here. -/
def MulPubKeys (pbks : List Bytes) : List Bytes :=
  pbks.map (List.drop 1)

/-- The loop of `MulPubKeys` with its fault: Go's `pk[1:]` panics on a
zero-length entry (`pk[1:0]` is out of range whatever the capacity),
modelled as `none`; otherwise the leading byte is dropped and the
remaining entries processed.  `MultiCheck` strips keys through this,
so the panic reaches it. -/
def mulPubKeysLoop : List Bytes → Option (List Bytes)
  | [] => some []
  | [] :: _ => none
  | (_ :: pk) :: rest => (mulPubKeysLoop rest).map (pk :: ·)

/-- `CheckSig` from src/common.go: delegates to `ed25519.Verify`
(the abstract parameter `Verify`); the version argument is unused. -/
def CheckSig (Verify : Bytes → Bytes → Bytes → Bool) (ver : Int)
    (pubkey msg sig : Bytes) : Bool :=
  Verify pubkey msg sig

/-- The loop of `CheckSigs`: walk the public keys positionally, fetching
`sigs[i]` at each step.  Reaching a key with no signature left at its
index is the Go out-of-bounds panic, modelled as `none`; a failing
verification returns `some false` at once, and exhausting the keys
returns `some true`. -/
def checkSigsLoop (Verify : Bytes → Bytes → Bytes → Bool) (msg : Bytes) :
    List Bytes → List Bytes → Option Bool
  | [], _ => some true
  | _ :: _, [] => none
  | pk :: pks, s :: ss =>
      if Verify pk msg s then checkSigsLoop Verify msg pks ss else some false

/-- `CheckSigs` from src/common.go: positional multi-signature verification
over one message; the version argument is unused. -/
def CheckSigs (Verify : Bytes → Bytes → Bytes → Bool) (ver : Int)
    (pubkeys : List Bytes) (msg : Bytes) (sigs : List Bytes) : Option Bool :=
  checkSigsLoop Verify msg pubkeys sigs

/-- `SingleCheck` from src/common.go: compare `paddr.Hash(pubkey, nil)`
(the abstract parameter `Hash`) with the claimed address; on mismatch
return `false` at once, otherwise delegate to `CheckSig`. -/
def SingleCheck (Hash : Bytes → Bytes) (Verify : Bytes → Bytes → Bytes → Bool)
    (ver : Int) (pubkey msg sig pkaddr : Bytes) : Bool :=
  if Hash pubkey = pkaddr then CheckSig Verify ver pubkey msg sig else false

/-- `MultiCheck` from src/common.go: derive the multi-signature address via
`paddr.MulHash` (the abstract parameter `MulHash`), propagating its error as
`(false, some e)`; on address mismatch return `(false, none)`; otherwise
strip the roster prefixes (which panics on a zero-length key entry) and
verify the signatures against the stripped keys.  The outer `Option`
propagates both possible faults, the stripping one and the `CheckSigs`
indexing one. -/
def MultiCheck {E : Type} (MulHash : List Bytes → List Bytes → Except E Bytes)
    (Verify : Bytes → Bytes → Bytes → Bool) (ver : Int) (msg : Bytes)
    (sigs pks pkhs : List Bytes) (pkaddr : Bytes) : Option (Bool × Option E) :=
  match MulHash pks pkhs with
  | Except.error e => some (false, some e)
  | Except.ok pka =>
      if pka = pkaddr then
        match mulPubKeysLoop pks with
        | none => none
        | some stripped =>
            (CheckSigs Verify ver stripped msg sigs).map (fun b => (b, none))
      else
        some (false, none)

/-- Strict lexicographic comparison of byte sequences
(the order realised by `bytes.Compare`): shorter-on-tie loses. -/
def bytesLt : Bytes → Bytes → Bool
  | [], [] => false
  | [], _ :: _ => true
  | _ :: _, [] => false
  | a :: as, b :: bs => if a < b then true else if b < a then false else bytesLt as bs

/-- Numeric value of a big-endian byte sequence (used to reason about
`KeyID`): fold most-significant-first. -/
def beVal (l : Bytes) : Nat :=
  l.foldl (fun a b => a * 256 + b) 0

/-! ### Facts about the big-endian serialiser -/

theorem beBytes_length (w x : Nat) : (beBytes w x).length = w := by
  induction w generalizing x with
  | zero => rfl
  | succ w ih => simp [beBytes, ih]

theorem beBytes_mem_lt (w x : Nat) : ∀ b ∈ beBytes w x, b < 256 := by
  induction w generalizing x with
  | zero => simp [beBytes]
  | succ w ih =>
    intro b hb
    simp only [beBytes, List.mem_append, List.mem_singleton] at hb
    rcases hb with hb | hb
    · exact ih _ b hb
    · subst hb; exact Nat.mod_lt _ (by norm_num)

theorem beVal_foldl (l : Bytes) : ∀ a : Nat,
    l.foldl (fun a b => a * 256 + b) a = a * 256 ^ l.length + beVal l := by
  induction l with
  | nil => intro a; simp [beVal]
  | cons b t ih =>
    intro a
    have hb : beVal (b :: t) = b * 256 ^ t.length + beVal t := by
      simp only [beVal, List.foldl_cons]
      simpa using ih b
    simp only [List.foldl_cons, hb, ih (a * 256 + b), List.length_cons]
    ring

theorem beVal_cons (b : Nat) (t : Bytes) :
    beVal (b :: t) = b * 256 ^ t.length + beVal t := by
  simp only [beVal, List.foldl_cons]
  simpa using beVal_foldl t b

theorem beVal_append (l1 l2 : Bytes) :
    beVal (l1 ++ l2) = beVal l1 * 256 ^ l2.length + beVal l2 := by
  simp only [beVal, List.foldl_append]
  exact beVal_foldl l2 _

theorem beVal_beBytes (w x : Nat) : beVal (beBytes w x) = x % 256 ^ w := by
  induction w generalizing x with
  | zero => simp [beBytes, beVal, Nat.mod_one]
  | succ w ih =>
    have h1 : beVal (beBytes (w + 1) x)
        = (x / 256 % 256 ^ w) * 256 + x % 256 := by
      have e1 : beVal [x % 256] = x % 256 := by simp [beVal]
      rw [show beBytes (w + 1) x = beBytes w (x / 256) ++ [x % 256] from rfl,
        beVal_append, ih, e1]
      norm_num
    have h2 : x % 256 ^ (w + 1) = x % 256 + 256 * (x / 256 % 256 ^ w) := by
      rw [pow_succ']
      exact Nat.mod_mul
    omega

theorem beVal_lt (l : Bytes) (h : ∀ b ∈ l, b < 256) :
    beVal l < 256 ^ l.length := by
  induction l with
  | nil => simp [beVal]
  | cons b t ih =>
    have hb : b < 256 := h b (by simp)
    have ht : beVal t < 256 ^ t.length := ih (fun c hc => h c (by simp [hc]))
    have : b * 256 ^ t.length + beVal t < (b + 1) * 256 ^ t.length := by
      have := Nat.pos_pow_of_pos t.length (show 0 < 256 by norm_num)
      nlinarith
    have hb' : (b + 1) * 256 ^ t.length ≤ 256 * 256 ^ t.length :=
      Nat.mul_le_mul_right _ (by omega)
    calc beVal (b :: t) = b * 256 ^ t.length + beVal t := beVal_cons b t
      _ < (b + 1) * 256 ^ t.length := this
      _ ≤ 256 * 256 ^ t.length := hb'
      _ = 256 ^ (b :: t).length := by rw [List.length_cons, pow_succ']

theorem beBytes_mod (w x : Nat) : beBytes w (x % 256 ^ w) = beBytes w x := by
  induction w generalizing x with
  | zero => rfl
  | succ w ih =>
    have hdvd : (256 : Nat) ∣ 256 ^ (w + 1) := dvd_pow_self 256 (by omega)
    have h1 : x % 256 ^ (w + 1) % 256 = x % 256 := Nat.mod_mod_of_dvd x hdvd
    have h2 : x % 256 ^ (w + 1) / 256 = x / 256 % 256 ^ w := by
      rw [pow_succ']
      exact Nat.mod_mul_right_div_self x 256 (256 ^ w)
    simp only [beBytes, h1, h2, ih]

theorem bytesLt_iff_beVal (l1 : Bytes) : ∀ l2 : Bytes,
    l1.length = l2.length → (∀ b ∈ l1, b < 256) → (∀ b ∈ l2, b < 256) →
    (bytesLt l1 l2 = true ↔ beVal l1 < beVal l2) := by
  induction l1 with
  | nil =>
    intro l2 hlen _ _
    have : l2 = [] := List.eq_nil_of_length_eq_zero hlen.symm
    subst this
    simp [bytesLt]
  | cons a as ih =>
    intro l2 hlen h1 h2
    cases l2 with
    | nil => simp at hlen
    | cons b bs =>
      have hlen' : as.length = bs.length := by simpa using hlen
      have ha : a < 256 := h1 a (by simp)
      have hbnd1 : beVal as < 256 ^ as.length :=
        beVal_lt as (fun c hc => h1 c (by simp [hc]))
      have hbnd2 : beVal bs < 256 ^ as.length := by
        rw [hlen']
        exact beVal_lt bs (fun c hc => h2 c (by simp [hc]))
      have hpow : (0 : Nat) < 256 ^ as.length :=
        Nat.pos_pow_of_pos _ (by norm_num)
      rw [beVal_cons, beVal_cons, ← hlen']
      by_cases hab : a < b
      · simp only [bytesLt, if_pos hab, true_iff]
        have : (a + 1) * 256 ^ as.length ≤ b * 256 ^ as.length :=
          Nat.mul_le_mul_right _ (by omega)
        nlinarith
      · by_cases hba : b < a
        · simp only [bytesLt, if_neg hab, if_pos hba, Bool.false_eq_true,
            false_iff, not_lt]
          have h3 : (b + 1) * 256 ^ as.length ≤ a * 256 ^ as.length :=
            Nat.mul_le_mul_right _ (by omega)
          have h4 : (b + 1) * 256 ^ as.length
              = b * 256 ^ as.length + 256 ^ as.length := by ring
          linarith
        · have hab' : a = b := by omega
          subst hab'
          simp only [bytesLt, if_neg hab, if_neg hba]
          rw [ih bs hlen' (fun c hc => h1 c (by simp [hc]))
            (fun c hc => h2 c (by simp [hc]))]
          omega

theorem keyID_mem_lt (h n i : Nat) : ∀ b ∈ KeyID h n i, b < 256 := by
  intro b hb
  simp only [KeyID, List.mem_append] at hb
  rcases hb with (hb | hb) | hb
  · exact beBytes_mem_lt 4 h b hb
  · exact beBytes_mem_lt 4 n b hb
  · exact beBytes_mem_lt 2 i b hb

theorem keyID_length (h n i : Nat) : (KeyID h n i).length = 10 := by
  simp [KeyID, beBytes_length]

theorem beVal_keyID (h n i : Nat) (hh : h < 2 ^ 32) (hn : n < 2 ^ 32)
    (hi : i < 2 ^ 16) :
    beVal (KeyID h n i) = h * 2 ^ 48 + n * 2 ^ 16 + i := by
  have hh' : h % 256 ^ 4 = h := Nat.mod_eq_of_lt (by norm_num at hh ⊢; omega)
  have hn' : n % 256 ^ 4 = n := Nat.mod_eq_of_lt (by norm_num at hn ⊢; omega)
  have hi' : i % 256 ^ 2 = i := Nat.mod_eq_of_lt (by norm_num at hi ⊢; omega)
  simp only [KeyID, beVal_append, beVal_beBytes, beBytes_length,
    List.length_append, hh', hn', hi']
  norm_num
  ring

/-! ### Facts about the multi-signature loop -/

theorem checkSigsLoop_eq_all (Verify : Bytes → Bytes → Bytes → Bool)
    (msg : Bytes) (pks : List Bytes) : ∀ sigs : List Bytes,
    pks.length ≤ sigs.length →
    checkSigsLoop Verify msg pks sigs
      = some ((pks.zip sigs).all fun p => Verify p.1 msg p.2) := by
  induction pks with
  | nil => intro sigs _; simp [checkSigsLoop]
  | cons pk pks ih =>
    intro sigs hlen
    cases sigs with
    | nil => simp at hlen
    | cons s ss =>
      have hlen' : pks.length ≤ ss.length := by simpa using hlen
      by_cases hv : Verify pk msg s
      · simp [checkSigsLoop, hv, ih ss hlen']
      · simp [checkSigsLoop, hv]

theorem checkSigsLoop_fault (Verify : Bytes → Bytes → Bytes → Bool)
    (msg : Bytes) (pks : List Bytes) : ∀ sigs : List Bytes,
    sigs.length < pks.length →
    (∀ p ∈ pks.zip sigs, Verify p.1 msg p.2 = true) →
    checkSigsLoop Verify msg pks sigs = none := by
  induction pks with
  | nil => intro sigs h _; simp at h
  | cons pk pks ih =>
    intro sigs hlen hall
    cases sigs with
    | nil => rfl
    | cons s ss =>
      have hv : Verify pk msg s = true := hall (pk, s) (by simp)
      have hlen' : ss.length < pks.length := by simpa using hlen
      simp only [checkSigsLoop, hv, if_pos]
      exact ih ss hlen' (fun p hp => hall p (by simp [hp]))

theorem checkSigsLoop_take (Verify : Bytes → Bytes → Bytes → Bool)
    (msg : Bytes) (pks : List Bytes) : ∀ sigs1 sigs2 : List Bytes,
    sigs1.take pks.length = sigs2.take pks.length →
    checkSigsLoop Verify msg pks sigs1 = checkSigsLoop Verify msg pks sigs2 := by
  induction pks with
  | nil => intro sigs1 sigs2 _; rfl
  | cons pk pks ih =>
    intro sigs1 sigs2 htake
    cases sigs1 with
    | nil =>
      cases sigs2 with
      | nil => rfl
      | cons s2 ss2 => simp [List.take] at htake
    | cons s1 ss1 =>
      cases sigs2 with
      | nil => simp [List.take] at htake
      | cons s2 ss2 =>
        simp only [List.length_cons, List.take_succ_cons, List.cons.injEq]
          at htake
        obtain ⟨hs, ht⟩ := htake
        subst hs
        simp only [checkSigsLoop]
        by_cases hv : Verify pk msg s1
        · simp only [hv, if_pos, ih ss1 ss2 ht]
        · simp [hv]

theorem mulPubKeysLoop_eq_some (pbks : List Bytes)
    (hne : ∀ b ∈ pbks, b ≠ []) :
    mulPubKeysLoop pbks = some (MulPubKeys pbks) := by
  induction pbks with
  | nil => rfl
  | cons b t ih =>
    cases b with
    | nil => exact absurd rfl (hne [] (by simp))
    | cons c cs =>
      simp [mulPubKeysLoop, MulPubKeys,
        ih (fun x hx => hne x (by simp [hx]))]

theorem mulPubKeysLoop_fault (pbks : List Bytes) (he : [] ∈ pbks) :
    mulPubKeysLoop pbks = none := by
  induction pbks with
  | nil => simp at he
  | cons b t ih =>
    cases b with
    | nil => rfl
    | cons c cs =>
      have ht : [] ∈ t := by simpa using he
      simp [mulPubKeysLoop, ih ht]

theorem zip_all_index_iff (Verify : Bytes → Bytes → Bytes → Bool)
    (msg : Bytes) (pks sigs : List Bytes) :
    (((pks.zip sigs).all fun p => Verify p.1 msg p.2) = true ↔
      ∀ i, ∀ h1 : i < pks.length, ∀ h2 : i < sigs.length,
        Verify pks[i] msg sigs[i] = true) := by
  rw [List.all_eq_true]
  constructor
  · intro hall i h1 h2
    have hi : i < (pks.zip sigs).length := by
      rw [List.length_zip]; omega
    have hmem : (pks.zip sigs)[i] ∈ pks.zip sigs := List.getElem_mem hi
    rw [List.getElem_zip] at hmem
    exact hall _ hmem
  · intro hidx p hp
    obtain ⟨i, hi, hpe⟩ := List.mem_iff_getElem.mp hp
    rw [List.getElem_zip] at hpe
    have h1 : i < pks.length := by rw [List.length_zip] at hi; omega
    have h2 : i < sigs.length := by rw [List.length_zip] at hi; omega
    rw [← hpe]
    exact hidx i h1 h2

/-! ### Claims -/

/-- C1: `SingleCheck` returns false whenever the address derived from the
public key differs from the claimed address — and then its result does not
depend on the signature verifier at all — and when the derived address
equals the claimed address it returns exactly
`CheckSig(version, pubkey, message, signature)`. -/
theorem singleCheck_spec (Hash : Bytes → Bytes)
    (Verify Verify2 : Bytes → Bytes → Bytes → Bool) (ver : Int)
    (pubkey msg sig pkaddr : Bytes) :
    (Hash pubkey ≠ pkaddr →
      SingleCheck Hash Verify ver pubkey msg sig pkaddr = false) ∧
    (Hash pubkey ≠ pkaddr →
      SingleCheck Hash Verify ver pubkey msg sig pkaddr
        = SingleCheck Hash Verify2 ver pubkey msg sig pkaddr) ∧
    (Hash pubkey = pkaddr →
      SingleCheck Hash Verify ver pubkey msg sig pkaddr
        = CheckSig Verify ver pubkey msg sig) := by
  refine ⟨fun hne => ?_, fun hne => ?_, fun heq => ?_⟩
  · simp [SingleCheck, hne]
  · simp [SingleCheck, hne]
  · simp [SingleCheck, heq]

theorem singleCheck_spec_witness :
    SingleCheck (fun _ => [1]) (fun _ _ _ => true) 1 [2] [3] [4] [9] = false ∧
    SingleCheck (fun _ => [1]) (fun _ _ _ => true) 1 [2] [3] [4] [9]
      = SingleCheck (fun _ => [1]) (fun _ _ _ => false) 1 [2] [3] [4] [9] ∧
    SingleCheck (fun _ => [1]) (fun _ _ _ => true) 1 [2] [3] [4] [1]
      = CheckSig (fun _ _ _ => true) 1 [2] [3] [4] :=
  ⟨(singleCheck_spec (fun _ => [1]) (fun _ _ _ => true) (fun _ _ _ => false)
      1 [2] [3] [4] [9]).1 (by decide),
   (singleCheck_spec (fun _ => [1]) (fun _ _ _ => true) (fun _ _ _ => false)
      1 [2] [3] [4] [9]).2.1 (by decide),
   (singleCheck_spec (fun _ => [1]) (fun _ _ _ => true) (fun _ _ _ => false)
      1 [2] [3] [4] [1]).2.2 (by decide)⟩

/-- C2 counterexample: the claim's match-case clause fails as universally
stated.  With a derivation that succeeds and matches the claimed address
but a zero-length prefixed key entry, the program panics in the stripping
loop (`pk[1:]` on an empty slice) instead of returning
`(CheckSigs(version, strippedPubkeys, message, signatures), nil)`. -/
theorem multiCheck_match_counterexample :
    ¬ (MultiCheck (fun _ _ => (Except.ok [7] : Except Nat Bytes))
        (fun _ _ _ => true) 1 [5] [[9]] [[]] [] [7]
      = (CheckSigs (fun _ _ _ => true) 1 (MulPubKeys [[]]) [5] [[9]]).map
          (fun b => (b, (none : Option Nat)))) := by decide

/-- C2 (amended): `MultiCheck` propagates a `MulHash` error unchanged as
`(false, that error)` and this is its only error path; on an address
mismatch it returns `(false, nil)`; on an address match it returns
`CheckSigs` over the prefix-stripped public keys with no error — provided
every prefixed key entry is non-empty — while a zero-length entry makes
the match branch fault instead of returning. -/
theorem multiCheck_spec {E : Type}
    (MulHash : List Bytes → List Bytes → Except E Bytes)
    (Verify : Bytes → Bytes → Bytes → Bool) (ver : Int) (msg : Bytes)
    (sigs pks pkhs : List Bytes) (pkaddr : Bytes) :
    (∀ e : E, MulHash pks pkhs = Except.error e →
      MultiCheck MulHash Verify ver msg sigs pks pkhs pkaddr
        = some (false, some e)) ∧
    (∀ a : Bytes, MulHash pks pkhs = Except.ok a → a ≠ pkaddr →
      MultiCheck MulHash Verify ver msg sigs pks pkhs pkaddr
        = some (false, none)) ∧
    (∀ a : Bytes, MulHash pks pkhs = Except.ok a → a = pkaddr →
      (∀ b ∈ pks, b ≠ []) →
      MultiCheck MulHash Verify ver msg sigs pks pkhs pkaddr
        = (CheckSigs Verify ver (pks.map (List.drop 1)) msg sigs).map
            (fun b => (b, (none : Option E)))) ∧
    (∀ a : Bytes, MulHash pks pkhs = Except.ok a → a = pkaddr →
      [] ∈ pks →
      MultiCheck MulHash Verify ver msg sigs pks pkhs pkaddr = none) ∧
    (∀ b : Bool, ∀ e : E,
      MultiCheck MulHash Verify ver msg sigs pks pkhs pkaddr
          = some (b, some e) →
      MulHash pks pkhs = Except.error e ∧ b = false) := by
  refine ⟨fun e he => ?_, fun a ha hne => ?_, fun a ha heq hent => ?_,
    fun a ha heq hin => ?_, fun b e hbe => ?_⟩
  · simp [MultiCheck, he]
  · simp [MultiCheck, ha, hne]
  · simp [MultiCheck, ha, heq, mulPubKeysLoop_eq_some pks hent, MulPubKeys]
  · simp [MultiCheck, ha, heq, mulPubKeysLoop_fault pks hin]
  · rcases hmh : MulHash pks pkhs with e₀ | a₀
    · simp only [MultiCheck, hmh, Option.some_inj, Prod.mk.injEq,
        Option.some_inj] at hbe
      exact ⟨by rw [hbe.2], hbe.1.symm⟩
    · exfalso
      simp only [MultiCheck, hmh] at hbe
      by_cases hpa : a₀ = pkaddr
      · rw [if_pos hpa] at hbe
        rcases hmp : mulPubKeysLoop pks with _ | stripped
        · rw [hmp] at hbe
          simp at hbe
        · rw [hmp] at hbe
          rcases hcs : CheckSigs Verify ver stripped msg sigs with _ | b₀
          · simp [hcs] at hbe
          · simp [hcs] at hbe
      · simp [if_neg hpa] at hbe

theorem multiCheck_spec_witness :
    MultiCheck (fun _ _ => (Except.error 3 : Except Nat Bytes)) (fun _ _ _ => true) 1 [5]
        [[6]] [[0, 7]] [] [9] = some (false, some 3) ∧
    MultiCheck (fun _ _ => (Except.ok [8] : Except Nat Bytes)) (fun _ _ _ => true) 1 [5]
        [[6]] [[0, 7]] [] [9] = some (false, none) ∧
    MultiCheck (fun _ _ => (Except.ok [9] : Except Nat Bytes)) (fun _ _ _ => true) 1 [5]
        [[6]] [[0, 7]] [] [9]
      = (CheckSigs (fun _ _ _ => true) 1 [[7]] [5] [[6]]).map
          (fun b => (b, (none : Option Nat))) ∧
    MultiCheck (fun _ _ => (Except.ok [9] : Except Nat Bytes)) (fun _ _ _ => true) 1 [5]
        [[6]] [[]] [] [9] = none :=
  ⟨(multiCheck_spec (fun _ _ => (Except.error 3 : Except Nat Bytes)) (fun _ _ _ => true) 1 [5]
      [[6]] [[0, 7]] [] [9]).1 3 rfl,
   (multiCheck_spec (fun _ _ => (Except.ok [8] : Except Nat Bytes)) (fun _ _ _ => true) 1 [5]
      [[6]] [[0, 7]] [] [9]).2.1 [8] rfl (by decide),
   (multiCheck_spec (fun _ _ => (Except.ok [9] : Except Nat Bytes)) (fun _ _ _ => true) 1 [5]
      [[6]] [[0, 7]] [] [9]).2.2.1 [9] rfl rfl (by decide),
   (multiCheck_spec (fun _ _ => (Except.ok [9] : Except Nat Bytes)) (fun _ _ _ => true) 1 [5]
      [[6]] [[]] [] [9]).2.2.2.1 [9] rfl rfl (by decide)⟩

/-- C5: `MulPubKeys` maps a list of non-empty byte sequences to a list of
the same length, in order, where each output entry is the corresponding
input entry with exactly its first byte removed; it is total on that
domain. -/
theorem mulPubKeys_spec (pbks : List Bytes) (hne : ∀ b ∈ pbks, b ≠ []) :
    (MulPubKeys pbks).length = pbks.length ∧
    List.Forall₂ (fun inp outp => ∃ c : Nat, inp = c :: outp)
      pbks (MulPubKeys pbks) := by
  refine ⟨by simp [MulPubKeys], ?_⟩
  induction pbks with
  | nil => exact List.Forall₂.nil
  | cons b t ih =>
    cases b with
    | nil => exact absurd rfl (hne [] (by simp))
    | cons c cs =>
      refine List.Forall₂.cons ⟨c, by simp [MulPubKeys]⟩ ?_
      exact ih (fun x hx => hne x (by simp [hx]))

theorem mulPubKeys_spec_witness :
    (MulPubKeys [[0, 1, 2], [1, 3]]).length = 2 ∧
    List.Forall₂ (fun inp outp => ∃ c : Nat, inp = c :: outp)
      [[0, 1, 2], [1, 3]] (MulPubKeys [[0, 1, 2], [1, 3]]) :=
  mulPubKeys_spec [[0, 1, 2], [1, 3]] (by decide)

/-- C8: `CheckSig` at version 1 is exactly the underlying Edwards-curve
verifier applied to the public key, the message and the signature; it is a
total function on byte sequences. -/
theorem checkSig_ed25519 (Verify : Bytes → Bytes → Bytes → Bool)
    (pubkey msg sig : Bytes) :
    CheckSig Verify 1 pubkey msg sig = Verify pubkey msg sig := rfl

/-- C9: the version parameter is ignored: `CheckSig` and `CheckSigs`
return the same result for any two version values on identical remaining
arguments. -/
theorem version_ignored (Verify : Bytes → Bytes → Bytes → Bool)
    (v1 v2 : Int) (pubkey msg sig : Bytes) (pubkeys sigs : List Bytes) :
    CheckSig Verify v1 pubkey msg sig = CheckSig Verify v2 pubkey msg sig ∧
    CheckSigs Verify v1 pubkeys msg sigs
      = CheckSigs Verify v2 pubkeys msg sigs :=
  ⟨rfl, rfl⟩

/-- C3: with equal-length key and signature lists, `CheckSigs` returns
true iff every positional pair verifies against the message, and returns
false iff some positional pair — possibly only the last one — fails. -/
theorem checkSigs_all_pairs (Verify : Bytes → Bytes → Bytes → Bool)
    (ver : Int) (pubkeys : List Bytes) (msg : Bytes) (sigs : List Bytes)
    (hlen : pubkeys.length = sigs.length) :
    (CheckSigs Verify ver pubkeys msg sigs = some true ↔
      ∀ i, ∀ h1 : i < pubkeys.length, ∀ h2 : i < sigs.length,
        Verify pubkeys[i] msg sigs[i] = true) ∧
    (CheckSigs Verify ver pubkeys msg sigs = some false ↔
      ∃ i, ∃ h1 : i < pubkeys.length, ∃ h2 : i < sigs.length,
        Verify pubkeys[i] msg sigs[i] = false) := by
  have heq : CheckSigs Verify ver pubkeys msg sigs
      = some ((pubkeys.zip sigs).all fun p => Verify p.1 msg p.2) :=
    checkSigsLoop_eq_all Verify msg pubkeys sigs (le_of_eq hlen)
  have hiff := zip_all_index_iff Verify msg pubkeys sigs
  rw [heq, Option.some_inj, Option.some_inj]
  constructor
  · simpa using hiff
  · rcases hb : (pubkeys.zip sigs).all fun p => Verify p.1 msg p.2
    · simp only [Bool.false_eq_true, false_iff, true_iff] at hiff ⊢
      rw [hb] at hiff
      simp only [Bool.false_eq_true, false_iff] at hiff
      push_neg at hiff
      obtain ⟨i, h1, h2, hv⟩ := hiff
      exact ⟨i, h1, h2, by simpa using hv⟩
    · simp only [Bool.true_eq_false, false_iff]
      rw [hb] at hiff
      simp only [true_iff] at hiff
      push_neg
      intro i h1 h2
      simp [hiff i h1 h2]

theorem checkSigs_all_pairs_witness :
    (CheckSigs (fun pk _ s => s = pk) 1 [[1], [2]] [5] [[1], [2]]
      = some true) ∧
    (CheckSigs (fun pk _ s => s = pk) 1 [[1], [2]] [5] [[1], [9]]
      = some false) :=
  ⟨((checkSigs_all_pairs (fun pk _ s => s = pk) 1 [[1], [2]] [5]
      [[1], [2]] rfl).1).mpr (by decide),
   ((checkSigs_all_pairs (fun pk _ s => s = pk) 1 [[1], [2]] [5]
      [[1], [9]] rfl).2).mpr ⟨1, by decide, by decide, by decide⟩⟩

/-- C4: equal list lengths are a sufficient precondition for `CheckSigs`
not to fault (every positional index is then in bounds), while on a
shorter signature list the positional indexing does fault out of bounds
once the loop reaches the missing index (which it does whenever no earlier
pair fails). -/
theorem checkSigs_length_contract (Verify : Bytes → Bytes → Bytes → Bool)
    (ver : Int) (pubkeys : List Bytes) (msg : Bytes) (sigs : List Bytes) :
    (pubkeys.length = sigs.length →
      (CheckSigs Verify ver pubkeys msg sigs).isSome = true) ∧
    (sigs.length < pubkeys.length →
      (∀ p ∈ pubkeys.zip sigs, Verify p.1 msg p.2 = true) →
      CheckSigs Verify ver pubkeys msg sigs = none) := by
  constructor
  · intro hlen
    rw [CheckSigs,
      checkSigsLoop_eq_all Verify msg pubkeys sigs (le_of_eq hlen)]
    rfl
  · intro hlen hall
    exact checkSigsLoop_fault Verify msg pubkeys sigs hlen hall

theorem checkSigs_length_contract_witness :
    (CheckSigs (fun _ _ _ => true) 1 [[1], [2]] [5] [[7], [8]]).isSome
      = true ∧
    CheckSigs (fun _ _ _ => true) 1 [[1], [2]] [5] [[7]] = none :=
  ⟨(checkSigs_length_contract (fun _ _ _ => true) 1 [[1], [2]] [5]
      [[7], [8]]).1 rfl,
   (checkSigs_length_contract (fun _ _ _ => true) 1 [[1], [2]] [5]
      [[7]]).2 (by decide) (by decide)⟩

/-- C10: an empty public-key roster verifies vacuously: `CheckSigs` on an
empty key list is true for any signature list, `MultiCheck` with no
prefixed public keys returns `(true, nil)` whenever address derivation
succeeds and matches, and `CheckSigs` never examines signatures beyond
the last public key (its result depends only on the first
`pubkeys.length` signatures). -/
theorem checkSigs_vacuous {E : Type}
    (MulHash : List Bytes → List Bytes → Except E Bytes)
    (Verify : Bytes → Bytes → Bytes → Bool) (ver : Int) (msg : Bytes)
    (sigs pkhs : List Bytes) (pkaddr : Bytes) :
    CheckSigs Verify ver [] msg sigs = some true ∧
    (∀ a : Bytes, MulHash [] pkhs = Except.ok a → a = pkaddr →
      MultiCheck MulHash Verify ver msg sigs [] pkhs pkaddr
        = some (true, (none : Option E))) ∧
    (∀ pubkeys sigs1 sigs2 : List Bytes,
      sigs1.take pubkeys.length = sigs2.take pubkeys.length →
      CheckSigs Verify ver pubkeys msg sigs1
        = CheckSigs Verify ver pubkeys msg sigs2) := by
  refine ⟨rfl, fun a ha heq => ?_, fun pubkeys sigs1 sigs2 htake => ?_⟩
  · simp [MultiCheck, ha, heq, mulPubKeysLoop, CheckSigs, checkSigsLoop]
  · exact checkSigsLoop_take Verify msg pubkeys sigs1 sigs2 htake

theorem checkSigs_vacuous_witness :
    MultiCheck (fun _ _ => (Except.ok [4] : Except Nat Bytes))
        (fun _ _ _ => false) 1 [5] [[6], [7]] [] [[0, 8]] [4]
      = some (true, (none : Option Nat)) ∧
    CheckSigs (fun _ _ _ => false) 1 [[2]] [5] [[6], [7]]
      = CheckSigs (fun _ _ _ => false) 1 [[2]] [5] [[6], [9]] :=
  ⟨(checkSigs_vacuous (fun _ _ => (Except.ok [4] : Except Nat Bytes))
      (fun _ _ _ => false) 1 [5] [[6], [7]] [[0, 8]] [4]).2.1 [4] rfl rfl,
   (checkSigs_vacuous (fun _ _ => (Except.ok [4] : Except Nat Bytes))
      (fun _ _ _ => false) 1 [5] [[6], [7]] [[0, 8]] [4]).2.2
      [[2]] [[6], [7]] [[6], [9]] (by decide)⟩

/-- C6: `KeyID` returns exactly 10 bytes: the big-endian 32-bit encoding
of the height, then the big-endian 32-bit encoding of the transaction
index, then the big-endian 16-bit encoding of the script index, with no
separators; out-of-range values are truncated modulo `2^32` / `2^16`
rather than range-checked. -/
theorem keyID_layout (h n i : Nat) :
    KeyID h n i
      = [h / 2 ^ 24 % 256, h / 2 ^ 16 % 256, h / 2 ^ 8 % 256, h % 256,
         n / 2 ^ 24 % 256, n / 2 ^ 16 % 256, n / 2 ^ 8 % 256, n % 256,
         i / 2 ^ 8 % 256, i % 256] ∧
    (KeyID h n i).length = 10 ∧
    KeyID h n i = KeyID (h % 2 ^ 32) (n % 2 ^ 32) (i % 2 ^ 16) := by
  refine ⟨?_, keyID_length h n i, ?_⟩
  · simp only [KeyID, beBytes, Nat.div_div_eq_div_mul, List.nil_append,
      List.append_assoc, List.cons_append, List.singleton_append]
    norm_num
  · have e1 : h % 2 ^ 32 = h % 256 ^ 4 := by norm_num
    have e2 : n % 2 ^ 32 = n % 256 ^ 4 := by norm_num
    have e3 : i % 2 ^ 16 = i % 256 ^ 2 := by norm_num
    rw [KeyID, KeyID, e1, e2, e3, beBytes_mod, beBytes_mod, beBytes_mod]

/-- C7: on the valid domain (`height, txIndex < 2^32`,
`scriptIndex < 2^16`) `KeyID` is deterministic and injective — two
triples produce the same byte sequence exactly when they are equal — and
order-preserving: strict lexicographic byte comparison of the outputs
coincides with the lexicographic order on (height, txIndex, scriptIndex). -/
theorem keyID_inj_mono (h1 n1 i1 h2 n2 i2 : Nat)
    (hh1 : h1 < 2 ^ 32) (hn1 : n1 < 2 ^ 32) (hi1 : i1 < 2 ^ 16)
    (hh2 : h2 < 2 ^ 32) (hn2 : n2 < 2 ^ 32) (hi2 : i2 < 2 ^ 16) :
    (KeyID h1 n1 i1 = KeyID h2 n2 i2 ↔ h1 = h2 ∧ n1 = n2 ∧ i1 = i2) ∧
    (bytesLt (KeyID h1 n1 i1) (KeyID h2 n2 i2) = true ↔
      h1 < h2 ∨ (h1 = h2 ∧ (n1 < n2 ∨ (n1 = n2 ∧ i1 < i2)))) := by
  have hv1 := beVal_keyID h1 n1 i1 hh1 hn1 hi1
  have hv2 := beVal_keyID h2 n2 i2 hh2 hn2 hi2
  norm_num at hh1 hn1 hi1 hh2 hn2 hi2 hv1 hv2
  constructor
  · constructor
    · intro he
      have : beVal (KeyID h1 n1 i1) = beVal (KeyID h2 n2 i2) := by rw [he]
      rw [hv1, hv2] at this
      omega
    · rintro ⟨rfl, rfl, rfl⟩
      rfl
  · have hlex := bytesLt_iff_beVal (KeyID h1 n1 i1) (KeyID h2 n2 i2)
      (by rw [keyID_length, keyID_length])
      (keyID_mem_lt h1 n1 i1) (keyID_mem_lt h2 n2 i2)
    rw [hlex, hv1, hv2]
    omega

theorem keyID_inj_mono_witness :
    (KeyID 7 8 9 = KeyID 7 8 9 ↔ 7 = 7 ∧ 8 = 8 ∧ 9 = 9) ∧
    (bytesLt (KeyID 7 8 9) (KeyID 7 8 10) = true ↔
      7 < 7 ∨ (7 = 7 ∧ (8 < 8 ∨ (8 = 8 ∧ 9 < 10)))) :=
  ⟨(keyID_inj_mono 7 8 9 7 8 9 (by norm_num) (by norm_num) (by norm_num)
      (by norm_num) (by norm_num) (by norm_num)).1,
   (keyID_inj_mono 7 8 9 7 8 10 (by norm_num) (by norm_num) (by norm_num)
      (by norm_num) (by norm_num) (by norm_num)).2⟩

end Cbase
